import Mathlib

/-!
Shallow embedding of the gh-star-search embedding-cache and evaluation
pipeline (internal/python/scripts/embedding_cache.py,
evaluate_embeddings.py, analyze_star_boost.py), together with theorems
settling the specification claims about it.

Modelling conventions:
* Python floats are modelled as real numbers, Python ints as `ℕ`/`ℤ`,
  Python strings as `String` (operated on through `String.toList` so that
  everything reduces in the kernel).
* DuckDB tables are modelled as lists of row structures; the filesystem
  cache directory and the JSON registry are association lists.
* A raising Python function is modelled with `Option`: `none` is a raised
  exception propagating to the caller.
-/

namespace GhStarSearch

/-! ## Identifier validation and model-id sanitization (embedding_cache.py) -/

/-- Character class `[a-zA-Z_]`, the first character of the
`_SAFE_IDENTIFIER` regex `^[a-zA-Z_][a-zA-Z0-9_]*$`. -/
def isWordStart (c : Char) : Bool :=
  c.isAlpha || c = '_'

/-- Character class `[a-zA-Z0-9_]` of the `_SAFE_IDENTIFIER` regex. -/
def isWordChar (c : Char) : Bool :=
  c.isAlphanum || c = '_'

/-- Truth value of `_SAFE_IDENTIFIER.match(name)`.  Python's `re` lets an
unanchored `$` also match just before one trailing `"\n"`, so a single
trailing newline is tolerated; this is part of the source semantics being
embedded, not of the specification. -/
def matchesSafeIdentifier (s : String) : Bool :=
  let cs := if s.toList.getLast? = some (Char.ofNat 10) then s.toList.dropLast else s.toList
  match cs with
  | [] => false
  | c :: rest => isWordStart c && rest.all isWordChar

/-- Embeds `_validate_identifier` (embedding_cache.py lines 30-33): returns
the name unchanged, or `none` for the raised `ValueError`. -/
def validateIdentifier (name : String) : Option String :=
  if matchesSafeIdentifier name then some name else none

/-- The word pattern `[a-zA-Z_][a-zA-Z0-9_]*` on a character list. -/
def specSafeCore : List Char → Bool
  | [] => false
  | c :: rest => isWordStart c && rest.all isWordChar

/-- Modelled from the spec: the allow-list of §4.1 — a storage identifier
must consist of characters in `[A-Za-z0-9_]` and start with a letter or an
underscore.  Used to compare the claimed validation rule with the source's
`_validate_identifier`. -/
def specSafeIdentifier (s : String) : Bool :=
  specSafeCore s.toList

/-- Replaces every occurrence of the character `old` by the character list
`new`; `str.replace` for a single-character needle. -/
def replaceChar (s : List Char) (old : Char) (new : List Char) : List Char :=
  s.flatMap (fun c => if c = old then new else [c])

/-- Embeds `EmbeddingCache._sanitize_model_id` (embedding_cache.py lines
68-70): `model_id.replace("/", "__").replace(":", "_").replace(".", "_")`.
The three needles are single characters and the replacements contain only
underscores, so the sequential `str.replace` calls are the sequential
character rewrites below. -/
def sanitizeModelId (modelId : String) : String :=
  ⟨replaceChar (replaceChar (replaceChar modelId.toList '/' ['_', '_']) ':' ['_']) '.' ['_']⟩

/-- Embeds `EmbeddingCache._get_cache_db_path` (lines 72-74): the cache
database file name `f"{self._sanitize_model_id(model_id)}.db"` inside the
cache directory. -/
def cacheDbFileName (modelId : String) : String :=
  sanitizeModelId modelId ++ ".db"

/-! ## Ranking engine (evaluate_embeddings.py `_apply_ranking_boosts`,
analyze_star_boost.py `compute_star_boost`) -/

open Real in
/-- Embeds `compute_star_boost` (analyze_star_boost.py lines 11-13) and the
identical formula in `_apply_ranking_boosts` (evaluate_embeddings.py lines
204-206): `1.0 + (coefficient * math.log10(stars + 1) / 6.0)`. -/
noncomputable def starBoost (coefficient : ℝ) (stars : ℕ) : ℝ :=
  1 + coefficient * logb 10 (stars + 1) / 6

/-- Embeds the recency factor of `_apply_ranking_boosts` (lines 211-212):
`1.0 - 0.2 * min(1.0, days_since_update / 365.0)`, where `days_since_update`
is `(datetime.now(tz) - updated_at).days` and may be negative for a
future-dated `updated_at`. -/
noncomputable def recencyFactor (daysSinceUpdate : ℤ) : ℝ :=
  1 - 0.2 * min 1 ((daysSinceUpdate : ℝ) / 365)

/-- Embeds the combined score of `_apply_ranking_boosts` (line 214):
`final_score = base_score * star_boost * recency_factor`. -/
noncomputable def finalScore (baseScore coefficient : ℝ) (stars : ℕ)
    (daysSinceUpdate : ℤ) : ℝ :=
  baseScore * starBoost coefficient stars * recencyFactor daysSinceUpdate

/-! ## Information-retrieval metrics (evaluate_embeddings.py) -/

/-- Iteration of `_compute_mrr` over `enumerate(results, start=1)`: returns
`1.0 / rank` at the first result whose name is in `relevant`, else `0.0`.
Results are represented by their `full_name` strings. -/
def mrrAux (relevant : List String) : List String → ℕ → ℚ
  | [], _ => 0
  | r :: rs, rank => if r ∈ relevant then 1 / (rank : ℚ) else mrrAux relevant rs (rank + 1)

/-- Embeds `_compute_mrr` (evaluate_embeddings.py lines 220-225). -/
def computeMrr (results relevant : List String) : ℚ :=
  mrrAux relevant results 1

/-- Embeds `_compute_precision_at_k` (lines 228-234):
`relevant_count / k if k > 0 else 0.0` over `results[:k]`. -/
def computePrecisionAtK (results relevant : List String) (k : ℕ) : ℚ :=
  if 0 < k then (((results.take k).countP (fun r => decide (r ∈ relevant)) : ℕ) : ℚ) / k
  else 0

/-- Embeds `_compute_recall_at_k` (lines 237-245): `0.0` for an empty
`relevant_repos`, otherwise `found / len(relevant_repos)`. -/
def computeRecallAtK (results relevant : List String) (k : ℕ) : ℚ :=
  if relevant = [] then 0
  else (((results.take k).countP (fun r => decide (r ∈ relevant)) : ℕ) : ℚ) / relevant.length

/-- Python `relevance_grades.get(full_name, 0)` over the grades dict,
modelled as an association list. -/
def gradeOf (grades : List (String × ℕ)) (name : String) : ℕ :=
  (grades.lookup name).getD 0

/-- Discounted cumulative sum `Σ gs[j] / log2(i + j + 2)`, the loop bodies of
both the DCG and the IDCG sums in `_compute_ndcg_at_k`. -/
noncomputable def dcgSum : List ℕ → ℕ → ℝ
  | [], _ => 0
  | g :: gs, i => (g : ℝ) / Real.logb 2 ((i : ℝ) + 2) + dcgSum gs (i + 1)

/-- Python `sorted(values, reverse=True)`. -/
def sortGradesDesc (vals : List ℕ) : List ℕ :=
  List.insertionSort (fun a b => b ≤ a) vals

/-- Embeds `_compute_ndcg_at_k` (lines 248-264): DCG of the top-k graded
results over the IDCG of the ideal ordering, with `idcg = 1.0` when no
grades exist and `0.0` returned when `idcg` is not positive. -/
noncomputable def computeNdcgAtK (results : List String) (grades : List (String × ℕ))
    (k : ℕ) : ℝ :=
  let dcg := dcgSum ((results.take k).map (gradeOf grades)) 0
  let idealRels := (sortGradesDesc (grades.map Prod.snd)).take k
  let idcg := if idealRels ≠ [] then dcgSum idealRels 0 else 1
  if 0 < idcg then dcg / idcg else 0

/-! ## Repository rows and the embedding input text -/

/-- A row of the `repositories` table restricted to the columns selected by
`get_repos_needing_embeddings` (`_REPO_COLUMNS` of embedding_cache.py). -/
structure Repo where
  id : String
  full_name : String
  description : String
  purpose : String
  topics_array : List String
  content_hash : String
deriving DecidableEq

/-- Embeds `_build_embedding_input` (evaluate_embeddings.py lines 136-156):
`parts` always starts with `repo.get("full_name", "")`; `purpose`,
`description` and the space-joined topics are appended only when truthy;
the parts are joined by `". "`.  A Python `None` text field is modelled as
the empty string (both are falsy and neither contributes a part). -/
def buildEmbeddingInput (repo : Repo) : String :=
  let parts := [repo.full_name]
    ++ (if repo.purpose ≠ "" then [repo.purpose] else [])
    ++ (if repo.description ≠ "" then [repo.description] else [])
    ++ (if repo.topics_array ≠ [] then [" ".intercalate repo.topics_array] else [])
  ". ".intercalate parts

/-- Modelled from the spec (§4.2): the embedding input text is the
concatenation of name, purpose, description and the space-joined topic
tags, joined by the fixed separator, "omitting any empty field" — including
an empty name. -/
def buildEmbeddingInputSpec (repo : Repo) : String :=
  let parts := (if repo.full_name ≠ "" then [repo.full_name] else [])
    ++ (if repo.purpose ≠ "" then [repo.purpose] else [])
    ++ (if repo.description ≠ "" then [repo.description] else [])
    ++ (if repo.topics_array ≠ [] then [" ".intercalate repo.topics_array] else [])
  ". ".intercalate parts

/-! ## Cache storage state (embedding_cache.py) -/

/-- A row of the per-model `embeddings` table (schema created by
`initialize_cache`, lines 109-119). -/
structure EmbRow where
  repo_id : String
  embedding : List ℚ
  content_hash : String
  embedded_at : ℕ
  model_id : String
  model_dimensions : ℤ
deriving DecidableEq

/-- A row of the `cache_metadata` table (lines 121-130). -/
structure MetaRow where
  model_id : String
  dimensions : ℤ
  total_embeddings : ℕ
  last_sync : ℕ
  created_at : ℕ
deriving DecidableEq

/-- One per-model DuckDB file: its two tables. -/
structure CacheDb where
  embeddings : List EmbRow
  cache_metadata : List MetaRow
deriving DecidableEq

/-- One entry of `metadata.json`'s `"models"` registry (lines 148-157). -/
structure RegistryEntry where
  db_path : String
  dimensions : ℤ
  total_repos : ℕ
  last_sync : ℕ
  created : ℕ
deriving DecidableEq

/-- The cache directory: the `.db` files keyed by file name, plus the
`metadata.json` registry keyed by model id.  Wall-clock time is passed to
each operation as an abstract tick. -/
structure CacheState where
  files : List (String × CacheDb)
  registry : List (String × RegistryEntry)
deriving DecidableEq

/-- A freshly created DuckDB file after the two `CREATE TABLE IF NOT
EXISTS` statements: both tables empty. -/
def emptyDb : CacheDb :=
  ⟨[], []⟩

/-- `duckdb.connect(path)`: opens the existing file or creates an empty
database. -/
def connectDb (st : CacheState) (path : String) : CacheDb :=
  (st.files.lookup path).getD emptyDb

/-- Writes a value under a key in an association list: replaces the entry
when the key is present, appends it otherwise. -/
def updateAssoc {α : Type} (l : List (String × α)) (k : String) (v : α) :
    List (String × α) :=
  if (l.lookup k).isSome then l.map (fun p => if p.1 == k then (k, v) else p)
  else l ++ [(k, v)]

/-- Embeds `EmbeddingCache.initialize_cache` (lines 104-157): connect
(creating the file if needed), create the tables if absent, insert the
`cache_metadata` row only when no row for the model exists, and add the
registry entry only when the model is not yet registered. -/
def initializeCache (st : CacheState) (modelId : String) (dimensions : ℤ)
    (now : ℕ) : CacheState :=
  let path := cacheDbFileName modelId
  let db := connectDb st path
  let existing := (db.cache_metadata.filter (fun m => m.model_id == modelId)).length
  let db' := if existing = 0 then
      { db with cache_metadata := db.cache_metadata ++ [⟨modelId, dimensions, 0, now, now⟩] }
    else db
  let files' := updateAssoc st.files path db'
  let registry' := if (st.registry.lookup modelId).isSome then st.registry
    else st.registry ++ [(modelId, ⟨path, dimensions, 0, now, now⟩)]
  ⟨files', registry'⟩

/-- The `WHERE e.repo_id IS NULL` test of the `LEFT JOIN` in
`get_repos_needing_embeddings`: no cached row matches the repo's id
together with its current content hash. -/
def needsEmbedding (db : CacheDb) (r : Repo) : Bool :=
  !(db.embeddings.any (fun e => e.repo_id == r.id && e.content_hash == r.content_hash))

/-- Lexicographic comparison of two character lists, the collation used for
the `ORDER BY id` on the VARCHAR id column. -/
def charListLe : List Char → List Char → Bool
  | [], _ => true
  | _ :: _, [] => false
  | a :: as, b :: bs => if a < b then true else if b < a then false else charListLe as bs

/-- The `ORDER BY id` of both queries in `get_repos_needing_embeddings`. -/
def sortById (repos : List Repo) : List Repo :=
  List.insertionSort (fun a b => charListLe a.id.toList b.id.toList = true) repos

/-- Embeds `EmbeddingCache.get_repos_needing_embeddings` (lines 159-196):
when the cache database file does not exist every repository is returned;
otherwise the repositories with no matching `(repo_id, content_hash)`
cache row are returned; both ordered by id. -/
def getReposNeedingEmbeddings (st : CacheState) (mainRepos : List Repo)
    (modelId : String) : List Repo :=
  match st.files.lookup (cacheDbFileName modelId) with
  | none => sortById mainRepos
  | some db => sortById (mainRepos.filter (fun r => needsEmbedding db r))

/-- One element of the `embeddings_data` argument of `store_embeddings`. -/
structure StoreRow where
  repo_id : String
  embedding : List ℚ
  content_hash : String
deriving DecidableEq

/-- Embeds `EmbeddingCache.store_embeddings` (lines 198-255): delete the
rows whose `repo_id` occurs in the incoming data, insert the new rows
stamped `now`, recount the table into `total_embeddings`/`last_sync`, and
mirror the count into the registry entry when the model is registered. -/
def storeEmbeddings (st : CacheState) (modelId : String) (dimensions : ℤ)
    (embeddingsData : List StoreRow) (now : ℕ) : CacheState :=
  let path := cacheDbFileName modelId
  let db := connectDb st path
  let repoIds := embeddingsData.map (fun d => d.repo_id)
  let kept := db.embeddings.filter (fun e => !(repoIds.contains e.repo_id))
  let inserted := embeddingsData.map
    (fun d => EmbRow.mk d.repo_id d.embedding d.content_hash now modelId dimensions)
  let embs := kept ++ inserted
  let total := embs.length
  let meta := db.cache_metadata.map
    (fun m => if m.model_id == modelId then
        { m with total_embeddings := total, last_sync := now } else m)
  let files' := updateAssoc st.files path ⟨embs, meta⟩
  let registry' := if (st.registry.lookup modelId).isSome then
      st.registry.map (fun p => if p.1 == modelId then
        (p.1, { p.2 with total_repos := total, last_sync := now }) else p)
    else st.registry
  ⟨files', registry'⟩

/-- The batch partition `repos_to_embed[i : i + batch_size]` of the sync
loop.  A zero batch size raises in Python (`range` with step 0); it is
modelled as producing no batches. -/
def chunksGo {α : Type} (n : ℕ) : ℕ → List α → List (List α)
  | _, [] => []
  | 0, _ :: _ => []
  | fuel + 1, a :: as => ((a :: as).take n) :: chunksGo n fuel ((a :: as).drop n)

/-- The batch partition `repos_to_embed[i : i + batch_size]` of the sync
loop, via the fuel-indexed `chunksGo` (the fuel `l.length` never runs out
for a positive batch size).  A zero batch size raises in Python (`range`
with step 0); it is modelled as producing no batches. -/
def chunks {α : Type} (l : List α) (n : ℕ) : List (List α) :=
  if n = 0 then [] else chunksGo n l.length l

/-- The batch loop of `sync_model_embeddings` (lines 340-353): per batch,
build the input texts, call the generator (`none` = raised exception),
`zip(..., strict=True)` the embeddings back onto the repos (a length
mismatch raises), and accumulate the rows of all batches in order. -/
def genBatches (gen : List String → Option (List (List ℚ))) :
    List (List Repo) → Option (List StoreRow)
  | [] => some []
  | batch :: rest =>
    match gen (batch.map buildEmbeddingInput) with
    | none => none
    | some embs =>
      if embs.length = batch.length then
        match genBatches gen rest with
        | none => none
        | some tail =>
          some ((List.zipWith (fun r e => StoreRow.mk r.id e r.content_hash) batch embs) ++ tail)
      else none

/-- Embeds `sync_model_embeddings` (lines 304-367).  The returned state is
the cache state when the call finishes, normally or by a propagating
exception (`none`): the cache is initialized first; if nothing is stale the
call returns `0`; otherwise all batches are generated and the accumulated
`embeddings_data` of every batch is committed by one final
`store_embeddings` call. -/
def syncModelEmbeddings (st : CacheState) (mainRepos : List Repo) (modelId : String)
    (dimensions : ℤ) (gen : List String → Option (List (List ℚ))) (batchSize : ℕ)
    (now : ℕ) : CacheState × Option ℕ :=
  let st1 := initializeCache st modelId dimensions now
  let reposToEmbed := getReposNeedingEmbeddings st1 mainRepos modelId
  if reposToEmbed = [] then (st1, some 0)
  else
    match genBatches gen (chunks reposToEmbed batchSize) with
    | none => (st1, none)
    | some data => (storeEmbeddings st1 modelId dimensions data now, some reposToEmbed.length)

/-- Number of rows of the model's `embeddings` table (0 when the database
file does not exist). -/
def countEmbeddings (st : CacheState) (modelId : String) : ℕ :=
  ((st.files.lookup (cacheDbFileName modelId)).getD emptyDb).embeddings.length

/-- The model's cache is fully initialized: its database file exists with a
`cache_metadata` row for the model, and the registry knows the model. -/
def modelInitialized (st : CacheState) (modelId : String) : Bool :=
  match st.files.lookup (cacheDbFileName modelId) with
  | none => false
  | some db =>
    db.cache_metadata.any (fun m => m.model_id == modelId)
      && (st.registry.lookup modelId).isSome

/-- The unique `embeddings` row for a repo id, via the `repo_id` primary
key. -/
def lookupEntry (db : CacheDb) (repoId : String) : Option EmbRow :=
  db.embeddings.find? (fun e => e.repo_id == repoId)

/-- The keys of an association list are pairwise distinct. -/
def keysNodup {α : Type} (l : List (String × α)) : Prop :=
  (l.map Prod.fst).Nodup

/-! ## Helper lemmas -/

theorem mem_of_getLast?_eq {α : Type} : ∀ {l : List α} {a : α}, l.getLast? = some a → a ∈ l
  | [x], _, h => by simpa using h.symm
  | x :: y :: t, a, h => by
    rw [List.getLast?_cons_cons] at h
    exact List.mem_cons_of_mem x (mem_of_getLast?_eq h)

theorem specSafeCore_getLast_ne_newline {l : List Char} (h : specSafeCore l = true) :
    l.getLast? ≠ some (Char.ofNat 10) := by
  intro hlast
  cases l with
  | nil => simp at hlast
  | cons c rest =>
    simp only [specSafeCore, Bool.and_eq_true] at h
    rcases List.mem_cons.mp (mem_of_getLast?_eq hlast) with h10 | h10
    · rw [← h10] at h
      exact absurd h.1 (by decide)
    · exact absurd (List.all_eq_true.mp h.2 _ h10) (by decide)

/-- Bridge between the regex matcher and the word-pattern core. -/
theorem matchesSafeIdentifier_eq (s : String) :
    matchesSafeIdentifier s =
      specSafeCore (if s.toList.getLast? = some (Char.ofNat 10)
        then s.toList.dropLast else s.toList) := by
  unfold matchesSafeIdentifier
  cases h : (if s.toList.getLast? = some (Char.ofNat 10)
      then s.toList.dropLast else s.toList) with
  | nil => simp [h, specSafeCore]
  | cons c rest => simp [h, specSafeCore]

theorem recencyFactor_ge (d : ℤ) : 0.8 ≤ recencyFactor d := by
  unfold recencyFactor
  have h := min_le_left (1 : ℝ) ((d : ℝ) / 365)
  linarith

theorem starBoost_ge_one {c : ℝ} (hc : 0 ≤ c) (s : ℕ) : 1 ≤ starBoost c s := by
  unfold starBoost
  have h1 : (0 : ℝ) ≤ Real.logb 10 ((s : ℝ) + 1) := by
    apply Real.logb_nonneg (by norm_num)
    have := Nat.cast_nonneg (α := ℝ) s
    linarith
  nlinarith

theorem starBoost_mono {c : ℝ} (hc : 0 ≤ c) {s1 s2 : ℕ} (h : s1 ≤ s2) :
    starBoost c s1 ≤ starBoost c s2 := by
  unfold starBoost
  have hlog : Real.logb 10 ((s1 : ℝ) + 1) ≤ Real.logb 10 ((s2 : ℝ) + 1) := by
    apply Real.logb_le_logb_of_le (by norm_num)
    · have := Nat.cast_nonneg (α := ℝ) s1
      linarith
    · have : (s1 : ℝ) ≤ (s2 : ℝ) := by exact_mod_cast h
      linarith
  have := mul_le_mul_of_nonneg_left hlog hc
  linarith

theorem recencyFactor_antitone {d1 d2 : ℤ} (h : d1 ≤ d2) :
    recencyFactor d2 ≤ recencyFactor d1 := by
  unfold recencyFactor
  have hc : (d1 : ℝ) ≤ (d2 : ℝ) := by exact_mod_cast h
  have hmin : min (1 : ℝ) ((d1 : ℝ) / 365) ≤ min 1 ((d2 : ℝ) / 365) :=
    min_le_min (le_refl 1) (by linarith)
  linarith

/-! ## Claim theorems -/

/-- C3: the claim states that `days_elapsed` is clamped to at least 0
before the recency factor is applied, so that `recency ≤ 1` and the final
score never exceeds `base_similarity * star_boost`.  The code has no such
clamp: at `days_since_update = -365` (a `last_updated` one year in the
future) the code's recency factor is `1.2 > 1` and the final score strictly
exceeds `base_similarity * star_boost`.  The spec itself (§4.3 `// clamp
to ≥ 0`, §9 open question) marks the clamp as the intent and the missing
clamp as a latent slip, so this is a bug of the code, witnessed here by
evaluating the embedded code at the failing input. -/
theorem recencyFactor_unclamped_code_bug :
    recencyFactor (-365) = 1.2 ∧
    finalScore 1 0.1 0 (-365) = 1.2 ∧
    1 * starBoost 0.1 0 < finalScore 1 0.1 0 (-365) := by
  norm_num [recencyFactor, finalScore, starBoost, Real.logb_one, min_eq_right]

/-- C5 (counterexample): the claim that every string containing a character
outside `[A-Za-z0-9_]` is rejected, and that no unvalidated caller-supplied
identifier reaches the storage layer, is false on the code: Python's `$`
matches before one trailing newline, so `_validate_identifier` accepts
`"abc\n"`; and the model id `"a-b"`, which the allow-list rejects, flows
through `_sanitize_model_id` (which only rewrites `/`, `:`, `.`) into the
cache database path with its `-` intact and is never validated. -/
theorem validateIdentifier_newline_counterexample :
    validateIdentifier "abc\n" = some "abc\n" ∧
    specSafeIdentifier "abc\n" = false ∧
    specSafeIdentifier "a-b" = false ∧
    cacheDbFileName "a-b" = "a-b.db" := by
  decide

/-- C5 (amended): `_validate_identifier` accepts exactly the strings
matching `[A-Za-z_][A-Za-z0-9_]*` optionally followed by one trailing
newline (Python `re` `$` semantics), rejecting everything else; view names
are validated before reaching the storage layer, but model identifiers are
only sanitized, and a sanitized model id may retain characters outside the
allow-list (e.g. `-`). -/
theorem validateIdentifier_spec :
    (∀ s : String, validateIdentifier s = some s ↔
      (specSafeIdentifier s = true ∨
        (s.toList.getLast? = some (Char.ofNat 10) ∧
          specSafeCore s.toList.dropLast = true))) ∧
    specSafeCore (sanitizeModelId "a-b").toList = false := by
  constructor
  · intro s
    have hval : validateIdentifier s = some s ↔ matchesSafeIdentifier s = true := by
      unfold validateIdentifier
      split <;> simp_all
    rw [hval, matchesSafeIdentifier_eq]
    by_cases h : s.toList.getLast? = some (Char.ofNat 10)
    · rw [if_pos h]
      unfold specSafeIdentifier
      constructor
      · intro hcore
        exact Or.inr ⟨h, hcore⟩
      · rintro (hcore | ⟨-, hcore⟩)
        · exact absurd h (specSafeCore_getLast_ne_newline hcore)
        · exact hcore
    · rw [if_neg h]
      unfold specSafeIdentifier
      constructor
      · exact fun hcore => Or.inl hcore
      · rintro (hcore | ⟨hlast, -⟩)
        · exact hcore
        · exact absurd hlast h
  · decide

/-- C8 (counterexample): the claim that every empty field is omitted from
the embedding input text is false on the code: for a record with an empty
name and purpose `"p"`, `_build_embedding_input` keeps the empty name part
and produces `". p"`, while omitting the empty name (the spec reading)
would produce `"p"`. -/
theorem buildEmbeddingInput_empty_name_counterexample :
    buildEmbeddingInput ⟨"x", "", "", "p", [], "h"⟩ = ". p" ∧
    buildEmbeddingInputSpec ⟨"x", "", "", "p", [], "h"⟩ = "p" ∧
    buildEmbeddingInput ⟨"x", "", "", "p", [], "h"⟩ ≠
      buildEmbeddingInputSpec ⟨"x", "", "", "p", [], "h"⟩ := by
  decide

/-- C8 (amended): the embedding input is the `". "`-joined concatenation of
name, purpose, description and the space-joined topics, omitting every
empty field except the name, which is always included; equivalently, the
claim as stated holds for every record whose name is non-empty. -/
theorem buildEmbeddingInput_eq_spec_of_name_nonempty (repo : Repo)
    (h : repo.full_name ≠ "") :
    buildEmbeddingInput repo = buildEmbeddingInputSpec repo := by
  unfold buildEmbeddingInput buildEmbeddingInputSpec
  rw [if_pos h]

/-- Witness for C8's amended theorem at a concrete record. -/
theorem buildEmbeddingInput_eq_spec_of_name_nonempty_witness :
    ("o/a" : String) ≠ "" ∧
    buildEmbeddingInput ⟨"r1", "o/a", "d", "", ["t1", "t2"], "h"⟩ =
      buildEmbeddingInputSpec ⟨"r1", "o/a", "d", "", ["t1", "t2"], "h"⟩ :=
  ⟨by decide, buildEmbeddingInput_eq_spec_of_name_nonempty _ (by decide)⟩

/-- C10: the model-id-to-path mapping is not injective: `"m:1"` and
`"m.1"` are distinct model ids mapped to the same database file, and after
model `"m:1"` stores an entry for repo `"r"`, a store for repo `"r"` under
model `"m.1"` overwrites it in the shared file — the surviving entry at
`"m:1"`'s path carries `model_id = "m.1"`. -/
theorem cacheDbFileName_collision :
    cacheDbFileName "m:1" = cacheDbFileName "m.1" ∧
    ("m:1" : String) ≠ "m.1" ∧
    (lookupEntry
        (connectDb
          (storeEmbeddings
            (storeEmbeddings (initializeCache ⟨[], []⟩ "m:1" 1 0) "m:1" 1
              [⟨"r", [1], "h1"⟩] 0)
            "m.1" 1 [⟨"r", [2], "h2"⟩] 1)
          (cacheDbFileName "m:1"))
        "r").map (fun e => e.model_id) = some "m.1" := by
  decide

/-- C6 (counterexample): the claim that the final score is non-decreasing
in `popularity_count` for every fixed `base_similarity` fails for negative
similarity (cosine similarity may be negative): with base score `-1`,
raising the star count from 0 to 9 strictly lowers the final score. -/
theorem finalScore_popularity_counterexample :
    finalScore (-1) 0.1 9 0 < finalScore (-1) 0.1 0 0 := by
  have h10 : Real.logb 10 ((9 : ℕ) + 1 : ℝ) = 1 := by norm_num
  norm_num [finalScore, starBoost, recencyFactor, Real.logb_one, min_eq_right, h10]

/-- C6 (amended): for non-negative `base_similarity` and a non-negative
boost coefficient, the final score is non-decreasing in `popularity_count`
for fixed similarity and staleness, and non-increasing in `days_elapsed`
for fixed similarity and popularity; the recency factor is exactly `0.8`
for anything 365 or more days stale; and with coefficient `0.1` a
zero-popularity record gets star boost exactly `1.0`. -/
theorem finalScore_monotonicity :
    (∀ (base c : ℝ) (s1 s2 : ℕ) (d : ℤ), 0 ≤ base → 0 ≤ c → s1 ≤ s2 →
      finalScore base c s1 d ≤ finalScore base c s2 d) ∧
    (∀ (base c : ℝ) (s : ℕ) (d1 d2 : ℤ), 0 ≤ base → 0 ≤ c → d1 ≤ d2 →
      finalScore base c s d2 ≤ finalScore base c s d1) ∧
    (∀ d : ℤ, 365 ≤ d → recencyFactor d = 0.8) ∧
    starBoost 0.1 0 = 1 := by
  refine ⟨?_, ?_, ?_, ?_⟩
  · intro base c s1 s2 d hb hc hs
    unfold finalScore
    have hrec : (0 : ℝ) ≤ recencyFactor d := le_trans (by norm_num) (recencyFactor_ge d)
    have hboost := starBoost_mono hc hs
    have hstep : base * starBoost c s1 ≤ base * starBoost c s2 :=
      mul_le_mul_of_nonneg_left hboost hb
    exact mul_le_mul_of_nonneg_right hstep hrec
  · intro base c s d1 d2 hb hc hd
    unfold finalScore
    have hbb : (0 : ℝ) ≤ base * starBoost c s :=
      mul_nonneg hb (le_trans zero_le_one (starBoost_ge_one hc s))
    exact mul_le_mul_of_nonneg_left (recencyFactor_antitone hd) hbb
  · intro d hd
    unfold recencyFactor
    have h1 : (1 : ℝ) ≤ (d : ℝ) / 365 := by
      rw [le_div_iff₀ (by norm_num)]
      have : (365 : ℝ) ≤ (d : ℝ) := by exact_mod_cast hd
      linarith
    rw [min_eq_left h1]
    norm_num
  · norm_num [starBoost, Real.logb_one]

/-- Witness for C6's amended theorem at concrete inputs. -/
theorem finalScore_monotonicity_witness :
    ((0 : ℝ) ≤ 1 ∧ (0 : ℝ) ≤ 0.1 ∧ (3 : ℕ) ≤ 5 ∧
      finalScore 1 0.1 3 10 ≤ finalScore 1 0.1 5 10) ∧
    ((2 : ℤ) ≤ 40 ∧ finalScore 1 0.1 3 40 ≤ finalScore 1 0.1 3 2) ∧
    ((365 : ℤ) ≤ 400 ∧ recencyFactor 400 = 0.8) :=
  ⟨⟨by norm_num, by norm_num, by norm_num,
      finalScore_monotonicity.1 1 0.1 3 5 10 (by norm_num) (by norm_num) (by norm_num)⟩,
    ⟨by norm_num,
      finalScore_monotonicity.2.1 1 0.1 3 2 40 (by norm_num) (by norm_num) (by norm_num)⟩,
    ⟨by norm_num, finalScore_monotonicity.2.2.1 400 (by norm_num)⟩⟩

theorem eq_of_mem_of_map_nodup {α β : Type} {l : List α} {f : α → β}
    (h : (l.map f).Nodup) {a b : α} (ha : a ∈ l) (hb : b ∈ l) (hf : f a = f b) :
    a = b := by
  by_contra hne
  have hp : l.Pairwise (fun x y => f x ≠ f y) := List.pairwise_map.mp h
  have hsym : Symmetric (fun x y : α => f x ≠ f y) := by
    intro x y hxy he
    exact hxy he.symm
  exact List.Pairwise.forall hsym hp ha hb hne hf

theorem needsEmbedding_iff {db : CacheDb} {r : Repo} :
    needsEmbedding db r = true ↔
      ∀ e ∈ db.embeddings, ¬(e.repo_id = r.id ∧ e.content_hash = r.content_hash) := by
  simp [needsEmbedding, not_and]

theorem mem_sortById {repos : List Repo} {r : Repo} : r ∈ sortById repos ↔ r ∈ repos := by
  simp [sortById]

theorem needsEmbedding_iff_lookupEntry {db : CacheDb} {r : Repo}
    (hnd : (db.embeddings.map (fun e => e.repo_id)).Nodup) :
    needsEmbedding db r = true ↔
      (lookupEntry db r.id = none ∨
        ∃ e, lookupEntry db r.id = some e ∧ e.content_hash ≠ r.content_hash) := by
  rw [needsEmbedding_iff]
  constructor
  · intro h
    cases hfind : lookupEntry db r.id with
    | none => exact Or.inl rfl
    | some e =>
      refine Or.inr ⟨e, rfl, ?_⟩
      have he : e ∈ db.embeddings := List.mem_of_find?_eq_some hfind
      have hid : e.repo_id = r.id := by simpa using List.find?_some hfind
      intro hhash
      exact h e he ⟨hid, hhash⟩
  · rintro h e he ⟨hid, hhash⟩
    cases h with
    | inl hnone =>
      rw [lookupEntry, List.find?_eq_none] at hnone
      exact hnone e he (by simp [hid])
    | inr hsome =>
      obtain ⟨e', hfind, hh'⟩ := hsome
      have he' : e' ∈ db.embeddings := List.mem_of_find?_eq_some hfind
      have hid' : e'.repo_id = r.id := by simpa using List.find?_some hfind
      have heq : e = e' := eq_of_mem_of_map_nodup hnd he he' (by rw [hid, hid'])
      exact hh' (by rw [← heq, hhash])

/-- C2: `get_repos_needing_embeddings` returns exactly the repos with no
cache entry or with a cache entry whose content hash differs from the
repo's current one (under the `repo_id` primary-key invariant of the
`embeddings` table), and when the model's cache database file does not yet
exist it returns every repo of the source set. -/
theorem getReposNeedingEmbeddings_spec :
    (∀ (st : CacheState) (repos : List Repo) (model : String),
      st.files.lookup (cacheDbFileName model) = none →
      List.Perm (getReposNeedingEmbeddings st repos model) repos) ∧
    (∀ (st : CacheState) (repos : List Repo) (model : String) (db : CacheDb) (r : Repo),
      st.files.lookup (cacheDbFileName model) = some db →
      (db.embeddings.map (fun e => e.repo_id)).Nodup →
      (r ∈ getReposNeedingEmbeddings st repos model ↔
        r ∈ repos ∧ (lookupEntry db r.id = none ∨
          ∃ e, lookupEntry db r.id = some e ∧ e.content_hash ≠ r.content_hash))) := by
  constructor
  · intro st repos model h
    simp only [getReposNeedingEmbeddings, h]
    exact List.perm_insertionSort _ _
  · intro st repos model db r h hnd
    simp only [getReposNeedingEmbeddings, h]
    rw [mem_sortById, List.mem_filter, needsEmbedding_iff_lookupEntry hnd]

/-- Witness for C2 at a concrete empty state, a concrete store, a stale
repo and a fresh repo. -/
theorem getReposNeedingEmbeddings_spec_witness :
    ((⟨[], []⟩ : CacheState).files.lookup (cacheDbFileName "m") = none ∧
      List.Perm
        (getReposNeedingEmbeddings ⟨[], []⟩ [⟨"r1", "n", "d", "p", [], "h1"⟩] "m")
        [⟨"r1", "n", "d", "p", [], "h1"⟩]) ∧
    ((⟨[("m.db", ⟨[⟨"r1", [1], "h1", 0, "m", 1⟩], []⟩)], []⟩ : CacheState).files.lookup
        (cacheDbFileName "m") = some ⟨[⟨"r1", [1], "h1", 0, "m", 1⟩], []⟩ ∧
      (([⟨"r1", [1], "h1", 0, "m", 1⟩] : List EmbRow).map (fun e => e.repo_id)).Nodup ∧
      ((⟨"r1", "n", "d", "p", [], "hX"⟩ : Repo) ∈
          getReposNeedingEmbeddings ⟨[("m.db", ⟨[⟨"r1", [1], "h1", 0, "m", 1⟩], []⟩)], []⟩
            [⟨"r1", "n", "d", "p", [], "hX"⟩] "m" ↔
        (⟨"r1", "n", "d", "p", [], "hX"⟩ : Repo) ∈ [(⟨"r1", "n", "d", "p", [], "hX"⟩ : Repo)] ∧
          (lookupEntry ⟨[⟨"r1", [1], "h1", 0, "m", 1⟩], []⟩ "r1" = none ∨
            ∃ e, lookupEntry ⟨[⟨"r1", [1], "h1", 0, "m", 1⟩], []⟩ "r1" = some e ∧
              e.content_hash ≠ "hX"))) :=
  ⟨⟨by decide, getReposNeedingEmbeddings_spec.1 _ _ _ (by decide)⟩,
    ⟨by decide, by decide,
      getReposNeedingEmbeddings_spec.2 _ _ _ _ _ (by decide) (by decide)⟩⟩

theorem lookup_cons_eqKey {α : Type} {p : String × α} {t : List (String × α)}
    {k : String} (h : (k == p.1) = true) : (p :: t).lookup k = some p.2 := by
  cases p
  simp only [List.lookup_cons]
  rw [h]

theorem lookup_cons_neKey {α : Type} {p : String × α} {t : List (String × α)}
    {k : String} (h : (k == p.1) = false) : (p :: t).lookup k = t.lookup k := by
  cases p
  simp only [List.lookup_cons]
  rw [h]

theorem lookup_updateAssoc_self {α : Type} (l : List (String × α)) (k : String) (v : α) :
    (updateAssoc l k v).lookup k = some v := by
  unfold updateAssoc
  split
  · rename_i h
    induction l with
    | nil => simp at h
    | cons p rest ih =>
      by_cases hpk : p.1 = k
      · have : (p.1 == k) = true := by simp [hpk]
        rw [List.map_cons, this]
        simp only [if_pos]
        exact lookup_cons_eqKey (by simp)
      · have hbeq : (p.1 == k) = false := by simp [hpk]
        have hkbeq : (k == p.1) = false := by
          simp only [beq_eq_false_iff_ne]
          exact fun he => hpk he.symm
        rw [List.map_cons, hbeq]
        simp only [Bool.false_eq_true, if_neg, not_false_iff]
        rw [lookup_cons_neKey hkbeq]
        apply ih
        rwa [lookup_cons_neKey hkbeq] at h
  · rename_i h
    have hnone : l.lookup k = none := by
      cases hl : l.lookup k with
      | none => rfl
      | some v2 => exact absurd (by simp [hl]) h
    rw [List.lookup_append, hnone]
    simp

theorem map_update_eq_of_not_mem {α : Type} {rest : List (String × α)} {k : String}
    {v : α} (h : k ∉ rest.map Prod.fst) :
    rest.map (fun p => if p.1 == k then (k, v) else p) = rest := by
  induction rest with
  | nil => rfl
  | cons q qs ih =>
    simp only [List.map_cons, List.mem_cons, not_or] at h
    have hq : (q.1 == k) = false := by
      simp only [beq_eq_false_iff_ne]
      exact fun he => h.1 he.symm
    rw [List.map_cons, hq]
    simp only [Bool.false_eq_true, if_neg, not_false_iff]
    rw [ih h.2]

theorem updateAssoc_self_eq {α : Type} {l : List (String × α)} {k : String} {v : α}
    (hnd : keysNodup l) (h : l.lookup k = some v) : updateAssoc l k v = l := by
  unfold updateAssoc
  rw [if_pos (by simp [h])]
  induction l with
  | nil => rfl
  | cons p rest ih =>
    rw [keysNodup, List.map_cons, List.nodup_cons] at hnd
    by_cases hpk : p.1 = k
    · have hkbeq : (k == p.1) = true := by simp [hpk]
      have hv : p.2 = v := by
        have := lookup_cons_eqKey (t := rest) hkbeq
        rw [h] at this
        exact (Option.some_inj.mp this).symm
      have hp : p = (k, v) := by
        cases p
        simp_all
      have hrest : k ∉ rest.map Prod.fst := by
        rw [← hpk]
        exact hnd.1
      rw [List.map_cons, hp]
      rw [show (((k, v) : String × α).1 == k) = true by simp]
      simp only [if_pos]
      rw [map_update_eq_of_not_mem hrest]
    · have hkbeq : (k == p.1) = false := by
        simp only [beq_eq_false_iff_ne]
        exact fun he => hpk he.symm
      have hpbeq : (p.1 == k) = false := by simp [hpk]
      rw [List.map_cons, hpbeq]
      simp only [Bool.false_eq_true, if_neg, not_false_iff]
      rw [ih hnd.2 (by rwa [lookup_cons_neKey hkbeq] at h)]

theorem keysNodup_updateAssoc {α : Type} {l : List (String × α)} {k : String} {v : α}
    (hnd : keysNodup l) : keysNodup (updateAssoc l k v) := by
  unfold updateAssoc
  split
  · unfold keysNodup at hnd ⊢
    have hkeys : (l.map (fun p => if p.1 == k then (k, v) else p)).map Prod.fst
        = l.map Prod.fst := by
      rw [List.map_map]
      apply List.map_congr_left
      intro p _
      by_cases hpk : p.1 = k
      · simp [hpk]
      · simp [hpk]
    rw [hkeys]
    exact hnd
  · rename_i h
    unfold keysNodup at hnd ⊢
    rw [List.map_append, List.nodup_append]
    refine ⟨hnd, by simp, ?_⟩
    intro a ha
    simp only [List.map_cons, List.map_nil, List.mem_singleton]
    intro hak
    subst hak
    have hsome : (l.lookup a).isSome := by
      rw [List.lookup_isSome_iff]
      rw [List.mem_map] at ha
      obtain ⟨p, hp, hpa⟩ := ha
      exact ⟨p, hp, by simp [hpa]⟩
    exact h hsome

theorem initializeCache_modelInitialized (st : CacheState) (model : String)
    (dims : ℤ) (t : ℕ) :
    modelInitialized (initializeCache st model dims t) model = true := by
  simp only [initializeCache, modelInitialized]
  rw [lookup_updateAssoc_self]
  rw [Bool.and_eq_true]
  constructor
  · by_cases hex :
      ((connectDb st (cacheDbFileName model)).cache_metadata.filter
        (fun m => m.model_id == model)).length = 0
    · simp [hex]
    · simp only [hex, if_neg, not_false_iff]
      have hpos : 0 <
          ((connectDb st (cacheDbFileName model)).cache_metadata.filter
            (fun m => m.model_id == model)).length := Nat.pos_of_ne_zero hex
      obtain ⟨m, hm⟩ := List.exists_mem_of_length_pos hpos
      rw [List.mem_filter] at hm
      rw [List.any_eq_true]
      exact ⟨m, hm.1, hm.2⟩
  · by_cases hreg : (st.registry.lookup model).isSome
    · simp [hreg]
    · have hnone : st.registry.lookup model = none := Option.not_isSome_iff_eq_none.mp hreg
      simp [hreg, List.lookup_append, hnone]

theorem initializeCache_fresh_metadata (st : CacheState) (model : String)
    (dims : ℤ) (t : ℕ) (h : st.files.lookup (cacheDbFileName model) = none) :
    (connectDb (initializeCache st model dims t) (cacheDbFileName model)).cache_metadata
      = [⟨model, dims, 0, t, t⟩] := by
  simp only [initializeCache, connectDb, h, Option.getD_none]
  rw [lookup_updateAssoc_self]
  simp [emptyDb]

theorem initializeCache_of_initialized {st : CacheState} {model : String}
    {dims : ℤ} {t : ℕ} (hinit : modelInitialized st model = true)
    (hnd : keysNodup st.files) :
    initializeCache st model dims t = st := by
  unfold modelInitialized at hinit
  cases hdb : st.files.lookup (cacheDbFileName model) with
  | none =>
    rw [hdb] at hinit
    simp at hinit
  | some db =>
    rw [hdb] at hinit
    simp only [Bool.and_eq_true] at hinit
    obtain ⟨hany, hsome⟩ := hinit
    have hex : (db.cache_metadata.filter (fun m => m.model_id == model)).length ≠ 0 := by
      rw [List.any_eq_true] at hany
      obtain ⟨m, hm, hbeq⟩ := hany
      have hmem : m ∈ db.cache_metadata.filter (fun m => m.model_id == model) :=
        List.mem_filter.mpr ⟨hm, hbeq⟩
      intro hlen
      rw [List.length_eq_zero] at hlen
      rw [hlen] at hmem
      simp at hmem
    simp only [initializeCache, connectDb, hdb, Option.getD_some, hex, if_neg,
      not_false_iff, hsome, if_pos]
    rw [updateAssoc_self_eq hnd hdb]

/-- C9: `initialize_cache` is idempotent: it always leaves the model
initialized; on a fresh store it creates the metadata row with a zero
embedding count and `created_at`/`last_sync` set to the call time; and on
an already-initialized model (under the registry/file-key uniqueness
invariant) it is exactly a no-op, so the existing `total_embeddings` count
and `created` timestamp are untouched. -/
theorem initializeCache_idempotent :
    (∀ (st : CacheState) (model : String) (dims : ℤ) (t : ℕ),
      modelInitialized (initializeCache st model dims t) model = true) ∧
    (∀ (st : CacheState) (model : String) (dims : ℤ) (t : ℕ),
      st.files.lookup (cacheDbFileName model) = none →
      (connectDb (initializeCache st model dims t) (cacheDbFileName model)).cache_metadata
        = [⟨model, dims, 0, t, t⟩]) ∧
    (∀ (st : CacheState) (model : String) (dims : ℤ) (t : ℕ),
      modelInitialized st model = true → keysNodup st.files →
      initializeCache st model dims t = st) :=
  ⟨initializeCache_modelInitialized,
    initializeCache_fresh_metadata,
    fun _ _ _ _ hinit hnd => initializeCache_of_initialized hinit hnd⟩

/-- Witness for C9 at a concrete empty state: the first call creates the
store and registry entry; the second call is a no-op. -/
theorem initializeCache_idempotent_witness :
    ((⟨[], []⟩ : CacheState).files.lookup (cacheDbFileName "m") = none ∧
      (connectDb (initializeCache ⟨[], []⟩ "m" 2 5) (cacheDbFileName "m")).cache_metadata
        = [⟨"m", 2, 0, 5, 5⟩]) ∧
    (modelInitialized (initializeCache ⟨[], []⟩ "m" 2 5) "m" = true ∧
      keysNodup (initializeCache ⟨[], []⟩ "m" 2 5).files ∧
      initializeCache (initializeCache ⟨[], []⟩ "m" 2 5) "m" 2 9
        = initializeCache ⟨[], []⟩ "m" 2 5) :=
  ⟨⟨by decide, initializeCache_idempotent.2.1 _ _ _ _ (by decide)⟩,
    ⟨by decide, by unfold keysNodup; decide,
      initializeCache_idempotent.2.2 _ _ _ _ (by decide) (by unfold keysNodup; decide)⟩⟩

theorem chunksGo_join {α : Type} (n : ℕ) (hn : 0 < n) :
    ∀ (fuel : ℕ) (l : List α), l.length ≤ fuel → (chunksGo n fuel l).flatten = l := by
  intro fuel
  induction fuel with
  | zero =>
    intro l hl
    cases l with
    | nil => rfl
    | cons a as => simp at hl
  | succ fuel ih =>
    intro l hl
    cases l with
    | nil => rfl
    | cons a as =>
      simp only [chunksGo, List.flatten_cons]
      have hlen : ((a :: as).drop n).length ≤ fuel := by
        simp only [List.length_drop, List.length_cons]
        simp only [List.length_cons] at hl
        omega
      rw [ih ((a :: as).drop n) hlen]
      exact List.take_append_drop n (a :: as)

theorem chunks_join {α : Type} {l : List α} {n : ℕ} (hn : 0 < n) :
    (chunks l n).flatten = l := by
  unfold chunks
  rw [if_neg hn.ne']
  exact chunksGo_join n hn l.length l le_rfl

theorem zipWith_storeRow_proj {batch : List Repo} {embs : List (List ℚ)}
    (h : embs.length = batch.length) :
    (List.zipWith (fun r e => StoreRow.mk r.id e r.content_hash) batch embs).map
        (fun d => (d.repo_id, d.content_hash))
      = batch.map (fun r => (r.id, r.content_hash)) := by
  induction batch generalizing embs with
  | nil => simp
  | cons r rs ih =>
    cases embs with
    | nil => simp at h
    | cons e es =>
      simp only [List.zipWith_cons_cons, List.map_cons, List.cons.injEq, true_and]
      exact ih (by simpa using h)

theorem genBatches_proj {gen : List String → Option (List (List ℚ))} :
    ∀ {bs : List (List Repo)} {data : List StoreRow}, genBatches gen bs = some data →
      data.map (fun d => (d.repo_id, d.content_hash))
        = bs.flatten.map (fun r => (r.id, r.content_hash)) := by
  intro bs
  induction bs with
  | nil =>
    intro data h
    simp only [genBatches, Option.some_inj] at h
    simp [← h]
  | cons batch rest ih =>
    intro data h
    simp only [genBatches] at h
    cases hg : gen (batch.map buildEmbeddingInput) with
    | none =>
      simp only [hg] at h
      exact absurd h (by simp)
    | some embs =>
      simp only [hg] at h
      by_cases hlen : embs.length = batch.length
      · rw [if_pos hlen] at h
        cases ht : genBatches gen rest with
        | none =>
          simp only [ht] at h
          exact absurd h (by simp)
        | some tail =>
          simp only [ht, Option.some_inj] at h
          subst h
          rw [List.map_append, zipWith_storeRow_proj hlen, ih ht, List.flatten_cons,
            List.map_append]
      · rw [if_neg hlen] at h
        exact absurd h (by simp)

theorem storeEmbeddings_embeddings (st : CacheState) (model : String) (dims : ℤ)
    (data : List StoreRow) (t : ℕ) :
    (connectDb (storeEmbeddings st model dims data t) (cacheDbFileName model)).embeddings
      = (connectDb st (cacheDbFileName model)).embeddings.filter
          (fun e => !((data.map (fun d => d.repo_id)).contains e.repo_id))
        ++ data.map (fun d => EmbRow.mk d.repo_id d.embedding d.content_hash t model dims) := by
  simp only [storeEmbeddings, connectDb]
  rw [lookup_updateAssoc_self]
  rfl

theorem initializeCache_keysNodup {st : CacheState} {model : String} {dims : ℤ} {t : ℕ}
    (h : keysNodup st.files) : keysNodup (initializeCache st model dims t).files := by
  simp only [initializeCache]
  exact keysNodup_updateAssoc h

theorem storeEmbeddings_keysNodup {st : CacheState} {model : String} {dims : ℤ}
    {data : List StoreRow} {t : ℕ} (h : keysNodup st.files) :
    keysNodup (storeEmbeddings st model dims data t).files := by
  simp only [storeEmbeddings]
  exact keysNodup_updateAssoc h

theorem lookup_isSome_map_keyFix {α : Type} {l : List (String × α)} {k : String}
    (f : String × α → String × α) (hf : ∀ p, (f p).1 = p.1) :
    ((l.map f).lookup k).isSome = (l.lookup k).isSome := by
  induction l with
  | nil => rfl
  | cons p rest ih =>
    cases hb : (k == p.1) with
    | true =>
      rw [List.map_cons, lookup_cons_eqKey (by rw [hf p]; exact hb), lookup_cons_eqKey hb]
      rfl
    | false =>
      rw [List.map_cons, lookup_cons_neKey (by rw [hf p]; exact hb), lookup_cons_neKey hb]
      exact ih

theorem storeEmbeddings_initialized {st : CacheState} {model : String} {dims : ℤ}
    {data : List StoreRow} {t : ℕ} (h : modelInitialized st model = true) :
    modelInitialized (storeEmbeddings st model dims data t) model = true := by
  unfold modelInitialized at h
  cases hdb : st.files.lookup (cacheDbFileName model) with
  | none => rw [hdb] at h; simp at h
  | some db =>
    rw [hdb] at h
    simp only [Bool.and_eq_true] at h
    obtain ⟨hany, hsome⟩ := h
    simp only [modelInitialized, storeEmbeddings, connectDb, hdb, Option.getD_some]
    rw [lookup_updateAssoc_self]
    rw [Bool.and_eq_true]
    constructor
    · rw [List.any_map]
      rw [List.any_eq_true] at hany ⊢
      obtain ⟨m, hm, hbeq⟩ := hany
      refine ⟨m, hm, ?_⟩
      simp only [Function.comp_apply]
      by_cases hc : (m.model_id == model) = true
      · rw [if_pos hc]
        exact hbeq
      · rw [if_neg hc]
        exact hbeq
    · rw [if_pos hsome]
      rw [lookup_isSome_map_keyFix _ (fun p => by by_cases hp : (p.1 == model) = true <;> simp [hp])]
      exact hsome

theorem mem_getRepos_of_some {st : CacheState} {db : CacheDb} {repos : List Repo}
    {model : String} {r : Repo} (h : st.files.lookup (cacheDbFileName model) = some db) :
    r ∈ getReposNeedingEmbeddings st repos model ↔
      r ∈ repos ∧ needsEmbedding db r = true := by
  simp only [getReposNeedingEmbeddings, h]
  rw [mem_sortById, List.mem_filter]

theorem getRepos_eq_nil_of_covered {st : CacheState} {db : CacheDb} {repos : List Repo}
    {model : String} (h : st.files.lookup (cacheDbFileName model) = some db)
    (hcov : ∀ r ∈ repos, needsEmbedding db r = false) :
    getReposNeedingEmbeddings st repos model = [] := by
  simp only [getReposNeedingEmbeddings, h]
  have : repos.filter (fun r => needsEmbedding db r) = [] := by
    rw [List.filter_eq_nil_iff]
    intro r hr
    simp [hcov r hr]
  rw [this]
  rfl

theorem needsEmbedding_false_of_witness {db : CacheDb} {r : Repo}
    (h : ∃ e ∈ db.embeddings, e.repo_id = r.id ∧ e.content_hash = r.content_hash) :
    needsEmbedding db r = false := by
  obtain ⟨e, he, h1, h2⟩ := h
  simp only [needsEmbedding, Bool.not_eq_false', List.any_eq_true]
  exact ⟨e, he, by simp [h1, h2]⟩

theorem storeEmbeddings_covers
    {st1 : CacheState} {repos : List Repo} {model : String} {dims : ℤ}
    {data : List StoreRow} {t : ℕ} {db1 : CacheDb}
    (hdb1 : st1.files.lookup (cacheDbFileName model) = some db1)
    (hids : (repos.map Repo.id).Nodup)
    (hproj : data.map (fun d => (d.repo_id, d.content_hash))
      = (getReposNeedingEmbeddings st1 repos model).map (fun r => (r.id, r.content_hash))) :
    ∀ r ∈ repos,
      needsEmbedding
        (connectDb (storeEmbeddings st1 model dims data t) (cacheDbFileName model)) r
        = false := by
  intro r hr
  have hconn : connectDb st1 (cacheDbFileName model) = db1 := by
    simp [connectDb, hdb1]
  have hembs := storeEmbeddings_embeddings st1 model dims data t
  rw [hconn] at hembs
  apply needsEmbedding_false_of_witness
  rw [hembs]
  by_cases hst : needsEmbedding db1 r = true
  · have hmem : r ∈ getReposNeedingEmbeddings st1 repos model :=
      (mem_getRepos_of_some hdb1).mpr ⟨hr, hst⟩
    have hpair : (r.id, r.content_hash) ∈ data.map (fun d => (d.repo_id, d.content_hash)) := by
      rw [hproj]
      exact List.mem_map_of_mem _ hmem
    obtain ⟨d, hd, hdeq⟩ := List.mem_map.mp hpair
    rw [Prod.mk.injEq] at hdeq
    refine ⟨EmbRow.mk d.repo_id d.embedding d.content_hash t model dims, ?_, hdeq.1, hdeq.2⟩
    exact List.mem_append_right _ (List.mem_map_of_mem _ hd)
  · have hst' : needsEmbedding db1 r = false := Bool.eq_false_iff.mpr hst
    have hex : ∃ e ∈ db1.embeddings, e.repo_id = r.id ∧ e.content_hash = r.content_hash := by
      simpa [needsEmbedding] using hst'
    obtain ⟨e, he, h1, h2⟩ := hex
    have hidsmap : data.map (fun d => d.repo_id)
        = (getReposNeedingEmbeddings st1 repos model).map Repo.id := by
      have hc := congrArg (List.map Prod.fst) hproj
      simpa [List.map_map, Function.comp] using hc
    have hnotin : r.id ∉ (getReposNeedingEmbeddings st1 repos model).map Repo.id := by
      intro hmem
      obtain ⟨r2, hr2, hrid⟩ := List.mem_map.mp hmem
      have hr2repos : r2 ∈ repos := ((mem_getRepos_of_some hdb1).mp hr2).1
      have : r2 = r := eq_of_mem_of_map_nodup hids hr2repos hr hrid
      subst this
      exact absurd ((mem_getRepos_of_some hdb1).mp hr2).2 hst
    refine ⟨e, ?_, h1, h2⟩
    apply List.mem_append_left
    rw [List.mem_filter]
    refine ⟨he, ?_⟩
    have : (data.map (fun d => d.repo_id)).contains e.repo_id = false := by
      rw [hidsmap, h1]
      cases hc : ((getReposNeedingEmbeddings st1 repos model).map Repo.id).contains r.id with
      | false => rfl
      | true => exact absurd (List.elem_iff.mp hc) hnotin
    rw [this]
    rfl

theorem modelInitialized_lookup_some {st : CacheState} {model : String}
    (h : modelInitialized st model = true) :
    ∃ db, st.files.lookup (cacheDbFileName model) = some db := by
  unfold modelInitialized at h
  cases hl : st.files.lookup (cacheDbFileName model) with
  | none => rw [hl] at h; simp at h
  | some db => exact ⟨db, rfl⟩

/-- C4: sync is idempotent: after any successful sync of a record set (ids
unique, positive batch size, well-formed cache directory), running sync
again with no record changes returns `0` and leaves the state — hence the
store's `total_embeddings` count — exactly unchanged. -/
theorem sync_idempotent
    (st : CacheState) (repos : List Repo) (model : String) (dims : ℤ)
    (gen gen2 : List String → Option (List (List ℚ))) (bs t1 t2 : ℕ)
    (st2 : CacheState) (n : ℕ)
    (hids : (repos.map Repo.id).Nodup)
    (hfk : keysNodup st.files)
    (hbs : 0 < bs)
    (h1 : syncModelEmbeddings st repos model dims gen bs t1 = (st2, some n)) :
    syncModelEmbeddings st2 repos model dims gen2 bs t2 = (st2, some 0) := by
  have hfk1 : keysNodup (initializeCache st model dims t1).files :=
    initializeCache_keysNodup hfk
  have hinit1 : modelInitialized (initializeCache st model dims t1) model = true :=
    initializeCache_modelInitialized st model dims t1
  obtain ⟨db1, hdb1⟩ := modelInitialized_lookup_some hinit1
  simp only [syncModelEmbeddings] at h1
  by_cases hemp :
      getReposNeedingEmbeddings (initializeCache st model dims t1) repos model = []
  · rw [if_pos hemp] at h1
    injection h1 with h1a h1b
    subst h1a
    simp only [syncModelEmbeddings]
    rw [initializeCache_of_initialized hinit1 hfk1]
    rw [if_pos hemp]
  · rw [if_neg hemp] at h1
    cases hgb : genBatches gen
        (chunks (getReposNeedingEmbeddings (initializeCache st model dims t1) repos model)
          bs) with
    | none =>
      simp only [hgb] at h1
      injection h1 with h1a h1b
      exact absurd h1b (by simp)
    | some data =>
      simp only [hgb] at h1
      injection h1 with h1a h1b
      subst h1a
      have hproj : data.map (fun d => (d.repo_id, d.content_hash))
          = (getReposNeedingEmbeddings (initializeCache st model dims t1) repos
              model).map (fun r => (r.id, r.content_hash)) := by
        have hp := genBatches_proj hgb
        rwa [chunks_join hbs] at hp
      have hcov := @storeEmbeddings_covers (initializeCache st model dims t1) repos
        model dims data t1 db1 hdb1 hids hproj
      have hinit2 : modelInitialized
          (storeEmbeddings (initializeCache st model dims t1) model dims data t1)
            model = true := storeEmbeddings_initialized hinit1
      have hfk2 : keysNodup
          (storeEmbeddings (initializeCache st model dims t1) model dims data t1).files :=
        storeEmbeddings_keysNodup hfk1
      obtain ⟨db2, hdb2⟩ := modelInitialized_lookup_some hinit2
      have hconn2 : connectDb
          (storeEmbeddings (initializeCache st model dims t1) model dims data t1)
          (cacheDbFileName model) = db2 := by
        simp [connectDb, hdb2]
      have hnil : getReposNeedingEmbeddings
          (storeEmbeddings (initializeCache st model dims t1) model dims data t1)
          repos model = [] := by
        apply getRepos_eq_nil_of_covered hdb2
        intro r hr
        rw [← hconn2]
        exact hcov r hr
      simp only [syncModelEmbeddings]
      rw [initializeCache_of_initialized hinit2 hfk2]
      rw [if_pos hnil]

/-- Record fixture for the C4 witness. -/
def c4Repos : List Repo :=
  [⟨"r1", "o/a", "d", "p", ["t"], "h1"⟩]

/-- Generator fixture for the C4 witness. -/
def c4Gen : List String → Option (List (List ℚ)) :=
  fun ts => some (ts.map (fun _ => [1]))

/-- State after the first C4-witness sync. -/
def c4St1 : CacheState :=
  (syncModelEmbeddings ⟨[], []⟩ c4Repos "m" 1 c4Gen 1 0).1

/-- Witness for C4: a concrete one-record sync followed by a second sync. -/
theorem sync_idempotent_witness :
    (c4Repos.map Repo.id).Nodup ∧
    keysNodup (⟨[], []⟩ : CacheState).files ∧
    0 < 1 ∧
    syncModelEmbeddings ⟨[], []⟩ c4Repos "m" 1 c4Gen 1 0 = (c4St1, some 1) ∧
    syncModelEmbeddings c4St1 c4Repos "m" 1 c4Gen 1 7 = (c4St1, some 0) :=
  ⟨by decide, by unfold keysNodup; decide, by decide, by decide,
    sync_idempotent ⟨[], []⟩ c4Repos "m" 1 c4Gen c4Gen 1 0 7 c4St1 1
      (by decide) (by unfold keysNodup; decide) (by decide) (by decide)⟩

theorem initializeCache_embeddings (st : CacheState) (model : String) (dims : ℤ)
    (t : ℕ) :
    (connectDb (initializeCache st model dims t) (cacheDbFileName model)).embeddings
      = (connectDb st (cacheDbFileName model)).embeddings := by
  simp only [initializeCache, connectDb]
  rw [lookup_updateAssoc_self]
  split <;> rfl

/-- C1 (counterexample): with two records and batch size 1 (two batches),
a generator that succeeds on batch 1 and fails on batch 2 leaves zero
entries in the store, not the one entry of batch 1 that the claim says is
already committed. -/
theorem sync_batch_failure_counterexample :
    (syncModelEmbeddings ⟨[], []⟩
        [⟨"r1", "o/a", "", "", [], "h1"⟩, ⟨"r2", "o/b", "", "", [], "h2"⟩] "m" 1
        (fun ts => if ts = [buildEmbeddingInput ⟨"r1", "o/a", "", "", [], "h1"⟩]
          then some [[1]] else none) 1 0).2 = none ∧
    countEmbeddings
      (syncModelEmbeddings ⟨[], []⟩
        [⟨"r1", "o/a", "", "", [], "h1"⟩, ⟨"r2", "o/b", "", "", [], "h2"⟩] "m" 1
        (fun ts => if ts = [buildEmbeddingInput ⟨"r1", "o/a", "", "", [], "h1"⟩]
          then some [[1]] else none) 1 0).1 "m" = 0 := by
  decide

/-- C1 (amended): batches are generated sequentially but committed only by
one `store_embeddings` call after every batch has succeeded.  If the
generator fails on any batch, the sync call propagates the failure and
stores nothing from this run: the resulting state is exactly the
initialized pre-sync state, and the store's row count is unchanged, so
re-running `sync` afterwards starts from the same stale set (all records
that were stale at the failed run, not merely those after the failing
batch). -/
theorem sync_generator_failure_state
    (st : CacheState) (repos : List Repo) (model : String) (dims : ℤ)
    (gen : List String → Option (List (List ℚ))) (bs t : ℕ)
    (hfail : genBatches gen
      (chunks (getReposNeedingEmbeddings (initializeCache st model dims t) repos model)
        bs) = none) :
    syncModelEmbeddings st repos model dims gen bs t
      = (initializeCache st model dims t, none) ∧
    countEmbeddings (syncModelEmbeddings st repos model dims gen bs t).1 model
      = countEmbeddings st model := by
  have hmain : syncModelEmbeddings st repos model dims gen bs t
      = (initializeCache st model dims t, none) := by
    simp only [syncModelEmbeddings]
    by_cases hemp :
        getReposNeedingEmbeddings (initializeCache st model dims t) repos model = []
    · rw [hemp] at hfail
      have : chunks ([] : List Repo) bs = [] := by
        unfold chunks
        split <;> rfl
      rw [this] at hfail
      exact absurd hfail (by simp [genBatches])
    · rw [if_neg hemp]
      simp only [hfail]
  refine ⟨hmain, ?_⟩
  rw [hmain]
  show (connectDb (initializeCache st model dims t) (cacheDbFileName model)).embeddings.length
    = (connectDb st (cacheDbFileName model)).embeddings.length
  rw [initializeCache_embeddings]

/-- Witness for C1's amended theorem: the concrete two-batch run whose
second batch fails. -/
theorem sync_generator_failure_state_witness :
    genBatches
      (fun ts => if ts = [buildEmbeddingInput ⟨"r1", "o/a", "", "", [], "h1"⟩]
        then some [[1]] else none)
      (chunks
        (getReposNeedingEmbeddings (initializeCache ⟨[], []⟩ "m" 1 0)
          [⟨"r1", "o/a", "", "", [], "h1"⟩, ⟨"r2", "o/b", "", "", [], "h2"⟩] "m") 1)
      = none ∧
    (syncModelEmbeddings ⟨[], []⟩
        [⟨"r1", "o/a", "", "", [], "h1"⟩, ⟨"r2", "o/b", "", "", [], "h2"⟩] "m" 1
        (fun ts => if ts = [buildEmbeddingInput ⟨"r1", "o/a", "", "", [], "h1"⟩]
          then some [[1]] else none) 1 0
      = (initializeCache ⟨[], []⟩ "m" 1 0, none) ∧
    countEmbeddings
      (syncModelEmbeddings ⟨[], []⟩
        [⟨"r1", "o/a", "", "", [], "h1"⟩, ⟨"r2", "o/b", "", "", [], "h2"⟩] "m" 1
        (fun ts => if ts = [buildEmbeddingInput ⟨"r1", "o/a", "", "", [], "h1"⟩]
          then some [[1]] else none) 1 0).1 "m"
      = countEmbeddings ⟨[], []⟩ "m") :=
  ⟨by decide,
    sync_generator_failure_state _ _ _ _ _ _ _ (by decide)⟩

theorem mrrAux_bounds (relevant : List String) :
    ∀ (l : List String) (rank : ℕ), 1 ≤ rank →
      0 ≤ mrrAux relevant l rank ∧ mrrAux relevant l rank ≤ 1 := by
  intro l
  induction l with
  | nil => intro rank _; simp [mrrAux]
  | cons r rs ih =>
    intro rank hrank
    simp only [mrrAux]
    by_cases hmem : r ∈ relevant
    · rw [if_pos hmem]
      have h0 : (0 : ℚ) < (rank : ℚ) := by exact_mod_cast hrank
      constructor
      · positivity
      · rw [div_le_one h0]
        exact_mod_cast hrank
    · rw [if_neg hmem]
      exact ih (rank + 1) (by omega)

theorem computeMrr_bounds (results relevant : List String) :
    0 ≤ computeMrr results relevant ∧ computeMrr results relevant ≤ 1 :=
  mrrAux_bounds relevant results 1 le_rfl

theorem computePrecisionAtK_bounds (results relevant : List String) (k : ℕ) :
    0 ≤ computePrecisionAtK results relevant k ∧ computePrecisionAtK results relevant k ≤ 1 := by
  unfold computePrecisionAtK
  by_cases hk : 0 < k
  · rw [if_pos hk]
    have hkq : (0 : ℚ) < (k : ℚ) := by exact_mod_cast hk
    have hcount : (results.take k).countP (fun r => decide (r ∈ relevant)) ≤ k :=
      le_trans (List.countP_le_length _) (List.length_take_le k results)
    constructor
    · positivity
    · rw [div_le_one hkq]
      exact_mod_cast hcount
  · rw [if_neg hk]
    norm_num

theorem computeRecallAtK_bounds (results relevant : List String) (k : ℕ)
    (hnd : results.Nodup) :
    0 ≤ computeRecallAtK results relevant k ∧ computeRecallAtK results relevant k ≤ 1 := by
  unfold computeRecallAtK
  by_cases hrel : relevant = []
  · rw [if_pos hrel]
    norm_num
  · rw [if_neg hrel]
    have hlen : (0 : ℚ) < (relevant.length : ℚ) := by
      have : 0 < relevant.length := List.length_pos.mpr hrel
      exact_mod_cast this
    have hcount : (results.take k).countP (fun r => decide (r ∈ relevant)) ≤ relevant.length := by
      rw [List.countP_eq_length_filter]
      have hu : ((results.take k).filter (fun r => decide (r ∈ relevant))).Nodup :=
        ((hnd.sublist (List.take_sublist k results)).filter _)
      have hsub : ((results.take k).filter (fun r => decide (r ∈ relevant))).toFinset
          ⊆ relevant.toFinset := by
        intro a ha
        rw [List.mem_toFinset] at ha
        rw [List.mem_toFinset]
        have := List.of_mem_filter ha
        simpa using this
      calc ((results.take k).filter (fun r => decide (r ∈ relevant))).length
          = ((results.take k).filter (fun r => decide (r ∈ relevant))).toFinset.card :=
            (List.toFinset_card_of_nodup hu).symm
        _ ≤ relevant.toFinset.card := Finset.card_le_card hsub
        _ ≤ relevant.length := List.toFinset_card_le relevant
    constructor
    · positivity
    · rw [div_le_one hlen]
      exact_mod_cast hcount

/-- C7 (counterexample): the claim's bound fails for a ranked list in which
one record name occurs twice: with `expected = ["a"]` and ranked list
`["a", "a"]`, Recall@10 evaluates to 2, outside `[0, 1]`. -/
theorem computeRecallAtK_duplicate_counterexample :
    computeRecallAtK ["a", "a"] ["a"] 10 = 2 ∧ ¬(computeRecallAtK ["a", "a"] ["a"] 10 ≤ 1) := by
  constructor
  · simp [computeRecallAtK, List.countP, List.countP.go]
  · simp [computeRecallAtK, List.countP, List.countP.go]

instance : IsTotal ℕ (fun a b => b ≤ a) :=
  ⟨fun a b => le_total b a⟩

instance : IsTrans ℕ (fun a b => b ≤ a) :=
  ⟨fun _ _ _ h1 h2 => le_trans h2 h1⟩

instance : IsAntisymm ℕ (fun a b => b ≤ a) :=
  ⟨fun _ _ h1 h2 => le_antisymm h2 h1⟩

/-- The position discount `1 / log2(i + 2)` of the NDCG sums. -/
noncomputable def discount (i : ℕ) : ℝ :=
  (Real.logb 2 ((i : ℝ) + 2))⁻¹

theorem logb_two_pos (i : ℕ) : 0 < Real.logb 2 ((i : ℝ) + 2) := by
  apply Real.logb_pos (by norm_num)
  have := Nat.cast_nonneg (α := ℝ) i
  linarith

theorem discount_nonneg (i : ℕ) : 0 ≤ discount i :=
  inv_nonneg.mpr (le_of_lt (logb_two_pos i))

theorem discount_antitone (i : ℕ) : discount (i + 1) ≤ discount i := by
  unfold discount
  apply inv_anti₀ (logb_two_pos i)
  apply Real.logb_le_logb_of_le (by norm_num)
  · have := Nat.cast_nonneg (α := ℝ) i
    linarith
  · push_cast
    linarith

/-- Weighted sum `Σ gs[j] * w (i + j)`, generalizing the two discounted
sums of `_compute_ndcg_at_k`. -/
noncomputable def wSum (w : ℕ → ℝ) : List ℕ → ℕ → ℝ
  | [], _ => 0
  | g :: gs, i => (g : ℝ) * w i + wSum w gs (i + 1)

theorem dcgSum_eq_wSum (gs : List ℕ) : ∀ i, dcgSum gs i = wSum discount gs i := by
  induction gs with
  | nil => intro i; rfl
  | cons g t ih =>
    intro i
    simp only [dcgSum, wSum, discount, div_eq_mul_inv, ih]

theorem wSum_nonneg {w : ℕ → ℝ} (hw : ∀ i, 0 ≤ w i) (gs : List ℕ) :
    ∀ i, 0 ≤ wSum w gs i := by
  induction gs with
  | nil => intro i; simp [wSum]
  | cons g t ih =>
    intro i
    simp only [wSum]
    have h1 : (0 : ℝ) ≤ (g : ℝ) * w i := mul_nonneg (by positivity) (hw i)
    have h2 := ih (i + 1)
    linarith

theorem dcgSum_nonneg (gs : List ℕ) (i : ℕ) : 0 ≤ dcgSum gs i := by
  rw [dcgSum_eq_wSum]
  exact wSum_nonneg discount_nonneg gs i

theorem wSum_eq_sum_range {w : ℕ → ℝ} (gs : List ℕ) :
    ∀ i, wSum w gs i = ∑ j ∈ Finset.range gs.length, (gs.getD j 0 : ℝ) * w (i + j) := by
  induction gs with
  | nil => intro i; simp [wSum]
  | cons g t ih =>
    intro i
    rw [List.length_cons, Finset.sum_range_succ']
    simp only [List.getD_cons_succ, List.getD_cons_zero, Nat.add_zero]
    simp only [wSum]
    rw [ih (i + 1), add_comm]
    congr 1
    apply Finset.sum_congr rfl
    intro j _
    have harg : i + 1 + j = i + (j + 1) := by omega
    rw [harg]

theorem wSum_eq_sum_range_of_le {w : ℕ → ℝ} {gs : List ℕ} {n : ℕ} (hn : gs.length ≤ n)
    (i : ℕ) : wSum w gs i = ∑ j ∈ Finset.range n, (gs.getD j 0 : ℝ) * w (i + j) := by
  induction n with
  | zero =>
    have : gs = [] := List.eq_nil_of_length_eq_zero (Nat.le_zero.mp hn)
    subst this
    simp [wSum]
  | succ n ih =>
    by_cases hlen : gs.length ≤ n
    · rw [ih hlen, Finset.sum_range_succ]
      rw [List.getD_eq_default _ _ hlen]
      simp
    · have : gs.length = n + 1 := by omega
      rw [wSum_eq_sum_range, this]

theorem sum_take_eq_sum_range (l : List ℕ) :
    ∀ p, ((l.take p).sum : ℝ) = ∑ j ∈ Finset.range p, (l.getD j 0 : ℝ) := by
  intro p
  induction p with
  | zero => simp
  | succ p ih =>
    rw [Finset.sum_range_succ, ← ih, List.take_succ]
    rw [List.sum_append]
    push_cast
    congr 1
    unfold List.getD
    cases hx : l[p]? with
    | none => simp [hx]
    | some x => simp [hx]

theorem sum_mul_weight_le (w : ℕ → ℝ) (hw0 : ∀ i, 0 ≤ w i) (hwa : ∀ i, w (i + 1) ≤ w i)
    (a b : ℕ → ℝ) (n : ℕ)
    (hpre : ∀ p, p ≤ n → ∑ j ∈ Finset.range p, a j ≤ ∑ j ∈ Finset.range p, b j) :
    ∑ j ∈ Finset.range n, a j * w j ≤ ∑ j ∈ Finset.range n, b j * w j := by
  have hab : ∀ (c : ℕ → ℝ), ∑ j ∈ Finset.range n, c j * w j
      = w (n - 1) * (∑ j ∈ Finset.range n, c j)
        - ∑ i ∈ Finset.range (n - 1),
            (w (i + 1) - w i) * (∑ j ∈ Finset.range (i + 1), c j) := by
    intro c
    have hparts := Finset.sum_range_by_parts w c n
    simpa [smul_eq_mul, mul_comm] using hparts
  rw [hab a, hab b]
  have h1 : w (n - 1) * (∑ j ∈ Finset.range n, a j)
      ≤ w (n - 1) * (∑ j ∈ Finset.range n, b j) :=
    mul_le_mul_of_nonneg_left (hpre n le_rfl) (hw0 (n - 1))
  have h2 : ∑ i ∈ Finset.range (n - 1),
        (w (i + 1) - w i) * (∑ j ∈ Finset.range (i + 1), b j)
      ≤ ∑ i ∈ Finset.range (n - 1),
        (w (i + 1) - w i) * (∑ j ∈ Finset.range (i + 1), a j) := by
    apply Finset.sum_le_sum
    intro i hi
    rw [Finset.mem_range] at hi
    have hcoef : w (i + 1) - w i ≤ 0 := by
      have := hwa i
      linarith
    exact mul_le_mul_of_nonpos_left (hpre (i + 1) (by omega)) hcoef
  linarith

theorem dcgSum_le_of_take_sum_le {t s : List ℕ}
    (h : ∀ p, (t.take p).sum ≤ (s.take p).sum) :
    dcgSum t 0 ≤ dcgSum s 0 := by
  rw [dcgSum_eq_wSum, dcgSum_eq_wSum]
  rw [wSum_eq_sum_range_of_le (le_max_left t.length s.length) 0,
    wSum_eq_sum_range_of_le (le_max_right t.length s.length) 0]
  simp only [Nat.zero_add]
  apply sum_mul_weight_le discount discount_nonneg discount_antitone
  intro p _
  rw [← sum_take_eq_sum_range, ← sum_take_eq_sum_range]
  exact_mod_cast h p

theorem take_sum_tail_le {b : ℕ} {s : List ℕ}
    (hs : List.Sorted (fun a c => c ≤ a) (b :: s)) :
    ∀ q, (s.take q).sum ≤ ((b :: s).take q).sum := by
  induction s generalizing b with
  | nil => intro q; simp
  | cons c t ih =>
    intro q
    cases q with
    | zero => simp
    | succ q =>
      simp only [List.take_succ_cons, List.sum_cons]
      have hbc : c ≤ b := by
        rw [List.sorted_cons] at hs
        exact hs.1 c (by simp)
      have ht : (t.take q).sum ≤ ((c :: t).take q).sum := by
        apply ih
        rw [List.sorted_cons] at hs
        exact hs.2
      omega

theorem orderedInsert_take_sum (a : ℕ) :
    ∀ (s : List ℕ), List.Sorted (fun x y => y ≤ x) s →
      ∀ p, (s.take p).sum ≤ ((List.orderedInsert (fun x y => y ≤ x) a s).take p).sum := by
  intro s
  induction s with
  | nil =>
    intro _ p
    cases p <;> simp
  | cons b t ih =>
    intro hs p
    simp only [List.orderedInsert]
    by_cases hab : b ≤ a
    · rw [if_pos hab]
      apply take_sum_tail_le
      rw [List.sorted_cons]
      refine ⟨?_, hs⟩
      intro y hy
      rcases List.mem_cons.mp hy with hy | hy
      · omega
      · have : y ≤ b := (List.sorted_cons.mp hs).1 y hy
        omega
    · rw [if_neg hab]
      cases p with
      | zero => simp
      | succ p =>
        simp only [List.take_succ_cons, List.sum_cons]
        have := ih (List.sorted_cons.mp hs).2 p
        omega

/-- Sum of the `p` largest elements of a list of grades. -/
def topsum (p : ℕ) (l : List ℕ) : ℕ :=
  ((sortGradesDesc l).take p).sum

theorem sortGradesDesc_sorted (l : List ℕ) :
    List.Sorted (fun a b => b ≤ a) (sortGradesDesc l) :=
  List.sorted_insertionSort _ l

theorem topsum_cons_le (p a : ℕ) (l : List ℕ) : topsum p l ≤ topsum p (a :: l) := by
  unfold topsum sortGradesDesc
  simp only [List.insertionSort]
  exact orderedInsert_take_sum a _ (sortGradesDesc_sorted l) p

theorem topsum_perm {l l2 : List ℕ} (h : l.Perm l2) (p : ℕ) :
    topsum p l = topsum p l2 := by
  unfold topsum
  have hsort : sortGradesDesc l = sortGradesDesc l2 := by
    apply List.eq_of_perm_of_sorted _ (sortGradesDesc_sorted l) (sortGradesDesc_sorted l2)
    exact (List.perm_insertionSort _ l).trans (h.trans (List.perm_insertionSort _ l2).symm)
  rw [hsort]

theorem topsum_append_le (m : List ℕ) (p : ℕ) :
    ∀ c, topsum p m ≤ topsum p (m ++ c) := by
  intro c
  induction c generalizing m with
  | nil => rw [List.append_nil]
  | cons a c ih =>
    have hperm : (m ++ a :: c).Perm (a :: (m ++ c)) := List.perm_middle
    rw [topsum_perm hperm p]
    exact le_trans (ih m) (topsum_cons_le p a (m ++ c))

theorem subperm_sum_le_topsum {m M : List ℕ} (h : m.Subperm M) {p : ℕ}
    (hp : m.length ≤ p) : m.sum ≤ topsum p M := by
  obtain ⟨m2, hperm, hsub⟩ := h
  obtain ⟨c, hM⟩ := hsub.exists_perm_append
  have h1 : m.sum = topsum p m := by
    unfold topsum
    rw [List.take_of_length_le]
    · exact ((List.perm_insertionSort _ m).sum_eq).symm
    · unfold sortGradesDesc
      rw [List.length_insertionSort]
      exact hp
  rw [h1]
  calc topsum p m = topsum p m2 := topsum_perm hperm.symm p
    _ ≤ topsum p (m2 ++ c) := topsum_append_le m2 p c
    _ = topsum p M := (topsum_perm hM p).symm

theorem sum_map_gradeOf (g : List (String × ℕ)) (l : List String) :
    (l.map (gradeOf g)).sum = (l.filterMap (fun n => g.lookup n)).sum := by
  induction l with
  | nil => rfl
  | cons n t ih =>
    rw [List.map_cons, List.sum_cons, List.filterMap_cons]
    cases hn : g.lookup n with
    | none => simp [gradeOf, hn, ih]
    | some v => simp [gradeOf, hn, ih]

theorem filterMap_lookup_subperm :
    ∀ (l : List String) (g : List (String × ℕ)), l.Nodup →
      (l.filterMap (fun n => g.lookup n)).Subperm (g.map Prod.snd) := by
  intro l
  induction l with
  | nil => intro g _; simp
  | cons n t ih =>
    intro g hnd
    rw [List.filterMap_cons]
    cases hn : g.lookup n with
    | none => exact ih g (List.nodup_cons.mp hnd).2
    | some v =>
      obtain ⟨g1, g2, rfl, -⟩ := List.lookup_eq_some_iff.mp hn
      have hcong : t.filterMap (fun m => (g1 ++ (n, v) :: g2).lookup m)
          = t.filterMap (fun m => (g1 ++ g2).lookup m) := by
        apply List.filterMap_congr
        intro m hm
        have hmn : (m == n) = false := by
          simp only [beq_eq_false_iff_ne]
          intro he
          exact (List.nodup_cons.mp hnd).1 (he ▸ hm)
        rw [List.lookup_append, List.lookup_append, lookup_cons_neKey hmn]
      rw [hcong]
      have hihs := ih (g1 ++ g2) (List.nodup_cons.mp hnd).2
      have hstep : (v :: t.filterMap (fun m => (g1 ++ g2).lookup m)).Subperm
          (v :: (g1 ++ g2).map Prod.snd) := (List.subperm_cons v).mpr hihs
      have hperm : ((g1 ++ (n, v) :: g2).map Prod.snd).Perm
          (v :: (g1 ++ g2).map Prod.snd) := by
        rw [List.map_append, List.map_cons, List.map_append]
        exact List.perm_middle
      exact hstep.trans hperm.symm.subperm

theorem grades_take_sum_le {rs : List String} {g : List (String × ℕ)}
    (hnd : rs.Nodup) (k : ℕ) :
    ∀ p, (((rs.take k).map (gradeOf g)).take p).sum
      ≤ (((sortGradesDesc (g.map Prod.snd)).take k).take p).sum := by
  intro p
  rw [← List.map_take, List.take_take, List.take_take]
  rw [sum_map_gradeOf]
  show _ ≤ topsum (min p k) (g.map Prod.snd)
  apply subperm_sum_le_topsum
    (filterMap_lookup_subperm _ g (hnd.sublist (List.take_sublist _ rs)))
  exact le_trans (List.length_filterMap_le _ _) (List.length_take_le _ _)

theorem dcg_le_ideal {rs : List String} {g : List (String × ℕ)}
    (hnd : rs.Nodup) (k : ℕ) :
    dcgSum ((rs.take k).map (gradeOf g)) 0
      ≤ dcgSum ((sortGradesDesc (g.map Prod.snd)).take k) 0 :=
  dcgSum_le_of_take_sum_le (grades_take_sum_le hnd k)

theorem computeNdcgAtK_bounds (results : List String) (grades : List (String × ℕ))
    (k : ℕ) (hnd : results.Nodup) :
    0 ≤ computeNdcgAtK results grades k ∧ computeNdcgAtK results grades k ≤ 1 := by
  simp only [computeNdcgAtK]
  by_cases hid : (0 : ℝ) <
      (if ((sortGradesDesc (grades.map Prod.snd)).take k) ≠ [] then
        dcgSum ((sortGradesDesc (grades.map Prod.snd)).take k) 0 else 1)
  · rw [if_pos hid]
    constructor
    · exact div_nonneg (dcgSum_nonneg _ _) hid.le
    · rw [div_le_one hid]
      by_cases hemp : ((sortGradesDesc (grades.map Prod.snd)).take k) = []
      · rw [if_neg (not_not_intro hemp)]
        have hle := @dcg_le_ideal results grades hnd k
        rw [hemp] at hle
        simp only [dcgSum] at hle
        linarith
      · rw [if_pos hemp]
        exact dcg_le_ideal hnd k
  · rw [if_neg hid]
    norm_num

theorem computeNdcgAtK_empty_grades (results : List String) (k : ℕ) :
    computeNdcgAtK results [] k = 0 := by
  have hzero : ∀ (gs : List ℕ), (∀ x ∈ gs, x = 0) → ∀ i, dcgSum gs i = 0 := by
    intro gs
    induction gs with
    | nil => intro _ i; rfl
    | cons g t ih =>
      intro h i
      have hg : g = 0 := h g (by simp)
      simp [dcgSum, hg, ih (fun x hx => h x (by simp [hx]))]
  have hd : dcgSum ((results.map (gradeOf ([] : List (String × ℕ)))).take k) 0 = 0 := by
    apply hzero
    intro x hx
    obtain ⟨n, -, rfl⟩ := List.mem_map.mp (List.mem_of_mem_take hx)
    rfl
  have hd2 : dcgSum ((results.take k).map (gradeOf ([] : List (String × ℕ)))) 0 = 0 := by
    apply hzero
    intro x hx
    obtain ⟨n, -, rfl⟩ := List.mem_map.mp hx
    rfl
  simp [computeNdcgAtK, sortGradesDesc, hd, hd2]

/-- C7 (amended): for every query fixture, MRR and Precision@k lie in
`[0, 1]` unconditionally, and Recall@k and NDCG@k lie in `[0, 1]` provided
no record name occurs twice in the ranked result list (as is the case for
lists produced by the unique-`repo_id` join); `NDCG@k = 0` (not a division
error) when `relevance_grades` is empty. -/
theorem metrics_bounds :
    (∀ results relevant : List String,
      0 ≤ computeMrr results relevant ∧ computeMrr results relevant ≤ 1) ∧
    (∀ (results relevant : List String) (k : ℕ),
      0 ≤ computePrecisionAtK results relevant k ∧
        computePrecisionAtK results relevant k ≤ 1) ∧
    (∀ (results relevant : List String) (k : ℕ), results.Nodup →
      0 ≤ computeRecallAtK results relevant k ∧ computeRecallAtK results relevant k ≤ 1) ∧
    (∀ (results : List String) (grades : List (String × ℕ)) (k : ℕ), results.Nodup →
      0 ≤ computeNdcgAtK results grades k ∧ computeNdcgAtK results grades k ≤ 1) ∧
    (∀ (results : List String) (k : ℕ), computeNdcgAtK results [] k = 0) :=
  ⟨computeMrr_bounds, computePrecisionAtK_bounds,
    fun results relevant k hnd => computeRecallAtK_bounds results relevant k hnd,
    fun results grades k hnd => computeNdcgAtK_bounds results grades k hnd,
    computeNdcgAtK_empty_grades⟩

/-- Witness for C7's amended theorem at a concrete ranked list, relevant
set, and grades dictionary. -/
theorem metrics_bounds_witness :
    (["a", "b"] : List String).Nodup ∧
    (0 ≤ computeRecallAtK ["a", "b"] ["a"] 10 ∧ computeRecallAtK ["a", "b"] ["a"] 10 ≤ 1) ∧
    (0 ≤ computeNdcgAtK ["a", "b"] [("a", 3), ("b", 1)] 10 ∧
      computeNdcgAtK ["a", "b"] [("a", 3), ("b", 1)] 10 ≤ 1) :=
  ⟨by decide,
    metrics_bounds.2.2.1 ["a", "b"] ["a"] 10 (by decide),
    metrics_bounds.2.2.2.1 ["a", "b"] [("a", 3), ("b", 1)] 10 (by decide)⟩

end GhStarSearch
